import Mathlib

/-!
Shallow embedding of the sequence-detection and keymap-extraction core of the
nvim-in-the-loop repository (TypeScript sources `src/analyzer.ts`,
`src/keymaps.ts`, `src/ai.ts`), together with proofs settling the frozen
claims about that code.

Conventions of the embedding:
* JavaScript numbers that carry timestamps and millisecond means are modelled
  as `Rat` (the claims about the running mean are stated over exact rational
  arithmetic); counts and sizes are `Nat`.
* JavaScript strings are modelled as `String`; character-by-character scans
  work on `String.toList` (all inputs of interest are ASCII, where JS UTF-16
  code units and Lean characters coincide).
* A JS `Map` with string keys is modelled as an association list that updates
  the first matching key in place and appends new keys at the end, which is
  exactly the insertion-order behaviour of `Map`.
* `Array.prototype.sort` with a consistent comparator is modelled by
  `List.insertionSort`, which is stable, as the JS sort is.
-/

namespace AiKeymap

/-- One observed input action, as decoded from the keystroke log
(`KeystrokeEvent` in `src/types.ts`).  Fields never consulted by the
analyzer (`seq`, `blocking`, `bufnr`, `filetype`) are omitted. -/
structure KeystrokeEvent where
  raw : String
  key : String
  mode : String
  timestamp : Rat
  file : Option String
deriving DecidableEq, Repr

/-- Aggregated statistics for one (mode, key list) signature
(`SequenceStat` in `src/types.ts`). -/
structure SequenceStat where
  mode : String
  keys : List String
  count : Nat
  meanDeltaMs : Rat
  sampleFile : Option String
deriving DecidableEq, Repr

/-- Caller-facing options of the analyzer, all optional
(`AnalyzerOptions` in `src/types.ts`). -/
structure AnalyzerOptions where
  windowSize : Option Nat
  minSequenceLength : Option Nat
  minOccurrences : Option Nat
deriving DecidableEq, Repr

/-- Options after defaulting (`Required<AnalyzerOptions>` in `src/analyzer.ts`). -/
structure ResolvedOptions where
  windowSize : Nat
  minSequenceLength : Nat
  minOccurrences : Nat
deriving DecidableEq, Repr

/-- The `DEFAULT_OPTIONS` constant of `src/analyzer.ts`. -/
def DEFAULT_OPTIONS : ResolvedOptions := ⟨5, 2, 2⟩

/-- `combineOptions` of `src/analyzer.ts`: each field falls back to the
default via `??`. -/
def combineOptions (options : Option AnalyzerOptions) : ResolvedOptions :=
  ⟨(options.bind (·.windowSize)).getD DEFAULT_OPTIONS.windowSize,
   (options.bind (·.minSequenceLength)).getD DEFAULT_OPTIONS.minSequenceLength,
   (options.bind (·.minOccurrences)).getD DEFAULT_OPTIONS.minOccurrences⟩

/-- `normalizeKey` of `src/analyzer.ts`:
`(event.key || event.raw || "").trim()`, then `null` when empty.
The JS `||` takes the first operand that is not the empty string. -/
def normalizeKey (event : KeystrokeEvent) : Option String :=
  let key := (if event.key ≠ "" then event.key
              else if event.raw ≠ "" then event.raw else "").trim
  if key = "" then none else some key

/-- `computeDelta` of `src/analyzer.ts`: zero when either timestamp is
falsy (that is, zero), else the difference scaled from nanoseconds to
milliseconds. -/
def computeDelta (start finish : Rat) : Rat :=
  if start = 0 ∨ finish = 0 then 0 else (finish - start) / 1000000

/-- The signature string `mode + ":" + keys.join(" ")` used to bucket
candidate sequences. -/
def signatureOf (mode : String) (sequence : List String) : String :=
  mode ++ ":" ++ String.intercalate " " sequence

/-- The body of `totals.get(signature)` followed by either the in-place
incremental update or `totals.set` of a fresh entry, for the keystroke
path of `findFrequentSequences` (lines 79 to 98 of `src/analyzer.ts`). -/
def updateTotals (totals : List (String × SequenceStat)) (signature : String)
    (base : KeystrokeEvent) (sequence : List String) (delta : Rat) :
    List (String × SequenceStat) :=
  match totals with
  | [] => [(signature, ⟨base.mode, sequence, 1, delta, base.file⟩)]
  | (sig, stat) :: rest =>
    if sig = signature then
      (sig, ⟨stat.mode, stat.keys, stat.count + 1,
        (stat.meanDeltaMs * (stat.count : Rat) + delta) / ((stat.count : Rat) + 1),
        stat.sampleFile⟩) :: rest
    else
      (sig, stat) :: updateTotals rest signature base sequence delta

/-- The inner `for (let j = i + 1; ...)` loop of `findFrequentSequences`:
the window is the list of events still to be scanned; a mode change
terminates the loop, an event with no normalizable key is skipped, and a
grown sequence of at least `minSeq` keys records an observation. -/
def processWindow (minSeq : Nat) (base : KeystrokeEvent) :
    List KeystrokeEvent → List String → List (String × SequenceStat) →
    List (String × SequenceStat)
  | [], _, totals => totals
  | current :: rest, sequence, totals =>
    if current.mode ≠ base.mode then totals
    else
      match normalizeKey current with
      | none => processWindow minSeq base rest sequence totals
      | some key =>
        let sequence' := sequence ++ [key]
        if sequence'.length < minSeq then
          processWindow minSeq base rest sequence' totals
        else
          processWindow minSeq base rest sequence'
            (updateTotals totals (signatureOf base.mode sequence') base sequence'
              (computeDelta base.timestamp current.timestamp))

/-- The outer `for (let i = 0; ...)` loop of `findFrequentSequences` over
the regular (non-command) events.  The window passed to `processWindow`
is `regularEvents.slice(i + 1, i + windowSize)`, that is, the next
`windowSize - 1` events. -/
def scanBases (cfg : ResolvedOptions) :
    List KeystrokeEvent → List (String × SequenceStat) →
    List (String × SequenceStat)
  | [], totals => totals
  | base :: rest, totals =>
    scanBases cfg rest
      (match normalizeKey base with
       | none => totals
       | some baseKey =>
         processWindow cfg.minSequenceLength base (rest.take (cfg.windowSize - 1))
           [baseKey] totals)

/-- The command-mode pre-pass of `findFrequentSequences`: counts of the
literal command strings, in first-occurrence order, keeping the first
event's file. -/
def bumpCommand : List (String × Nat × Option String) → String → Option String →
    List (String × Nat × Option String)
  | [], cmd, file => [(cmd, 1, file)]
  | (c, n, f) :: rest, cmd, file =>
    if c = cmd then (c, n + 1, f) :: rest
    else (c, n, f) :: bumpCommand rest cmd file

/-- Builds the `commandCounts` map of `findFrequentSequences`. -/
def buildCommandCounts (events : List KeystrokeEvent) :
    List (String × Nat × Option String) :=
  events.foldl (fun acc e => bumpCommand acc e.key e.file) []

/-- Seeds `totals` with one entry per sufficiently frequent command
(lines 41 to 52 of `src/analyzer.ts`): keys is the one-element list of
the command text and the mean delta is fixed at zero. -/
def commandTotals (minOccurrences : Nat)
    (counts : List (String × Nat × Option String)) :
    List (String × SequenceStat) :=
  counts.filterMap fun x =>
    if minOccurrences ≤ x.2.1 then
      some ("command:" ++ x.1, ⟨"command", [x.1], x.2.1, 0, x.2.2⟩)
    else none

/-- The fully accumulated `totals` map of `findFrequentSequences`:
command entries first, then the keystroke window scan over the events
whose mode is not "command". -/
def analyzerTotals (cfg : ResolvedOptions) (events : List KeystrokeEvent) :
    List (String × SequenceStat) :=
  scanBases cfg (events.filter (fun e => e.mode != "command"))
    (commandTotals cfg.minOccurrences
      (buildCommandCounts (events.filter (fun e => e.mode == "command"))))

/-- Test of the regex `^[a-zA-Z0-9]$` on a single character. -/
def isAlnumAscii (c : Char) : Bool :=
  decide (('a' ≤ c ∧ c ≤ 'z') ∨ ('A' ≤ c ∧ c ≤ 'Z') ∨ ('0' ≤ c ∧ c ≤ '9'))

/-- `key.length === 1 && /^[a-zA-Z0-9]$/.test(key)` from
`isInterestingSequence`. -/
def isSingleAlnum (key : String) : Bool :=
  match key.toList with
  | [c] => isAlnumAscii c
  | _ => false

/-- `isInterestingSequence` of `src/analyzer.ts` (lines 128 to 176),
ported branch by branch: the insert or replace plain-typing rejection,
the three normal-mode keep rules, the command and visual keeps, and the
final special-key test. -/
def isInterestingSequence (seq : SequenceStat) : Bool :=
  if (seq.mode == "i" || seq.mode == "R") && seq.keys.all isSingleAlnum then
    false
  else if seq.mode == "n" && seq.keys.all (fun key => key == seq.keys.headD "")
      && decide (3 ≤ seq.keys.length) then
    true
  else if seq.mode == "n" && decide (seq.keys.length = 3)
      && (["c", "d", "y", "v", "g"].contains (seq.keys.getD 0 ""))
      && (["i", "a"].contains (seq.keys.getD 1 "")) then
    true
  else if seq.mode == "n" && decide (seq.keys.length = 3)
      && seq.keys.getD 0 "" == "g" && seq.keys.getD 1 "" == "c"
      && seq.keys.getD 2 "" == "c" then
    true
  else if seq.mode == "c" || seq.mode == "command" then
    true
  else if seq.mode == "v" || seq.mode == "V" then
    true
  else
    seq.keys.any (fun key => key.startsWith "<")

/-- The total preorder realised by the sort comparator of
`findFrequentSequences`: count descending, ties broken by mean delta
ascending. -/
def statLE (a b : SequenceStat) : Prop :=
  b.count < a.count ∨ (a.count = b.count ∧ a.meanDeltaMs ≤ b.meanDeltaMs)

instance : DecidableRel statLE := fun a b => by
  unfold statLE
  infer_instance

instance : IsTotal SequenceStat statLE where
  total a b := by
    rcases Nat.lt_trichotomy a.count b.count with h | h | h
    · exact Or.inr (Or.inl h)
    · rcases le_total a.meanDeltaMs b.meanDeltaMs with h2 | h2
      · exact Or.inl (Or.inr ⟨h, h2⟩)
      · exact Or.inr (Or.inr ⟨h.symm, h2⟩)
    · exact Or.inl (Or.inl h)

instance : IsTrans SequenceStat statLE where
  trans a b c hab hbc := by
    rcases hab with h | ⟨he, hm⟩
    · rcases hbc with h2 | ⟨he2, _⟩
      · exact Or.inl (h2.trans h)
      · exact Or.inl (he2 ▸ h)
    · rcases hbc with h2 | ⟨he2, hm2⟩
      · exact Or.inl (he ▸ h2)
      · exact Or.inr ⟨he.trans he2, hm.trans hm2⟩

/-- `findFrequentSequences` of `src/analyzer.ts` (lines 17 to 113):
command aggregation, windowed keystroke scan, the two retention filters,
and the final stable sort. -/
def findFrequentSequences (events : List KeystrokeEvent)
    (options : Option AnalyzerOptions) : List SequenceStat :=
  let cfg := combineOptions options
  if events.length = 0 then []
  else
    let totals := analyzerTotals cfg events
    let sequences :=
      ((totals.map Prod.snd).filter
          (fun s => decide (cfg.minOccurrences ≤ s.count))).filter
        isInterestingSequence
    List.insertionSort statLE sequences

/-! Keymap extractor: the structural-call (Lua) strategy of `src/keymaps.ts`.
Character scans are modelled over `List Char`; literal brace characters in
strings are written with hexadecimal escapes. -/

/-- One observed existing binding (`KeymapDefinition` in `src/types.ts`). -/
structure KeymapDefinition where
  mode : String
  lhs : String
  rhs : Option String
  source : String
  line : Nat
deriving DecidableEq, Repr

/-- The backtick character, one of the three string delimiters of the
splitter and of the quoted-mode regex. -/
def backtickChar : Char := Char.ofNat 96

/-- The single-quote character. -/
def singleQuoteChar : Char := Char.ofNat 39

/-- The opening-brace character. -/
def lbraceChar : Char := Char.ofNat 123

/-- The closing-brace character. -/
def rbraceChar : Char := Char.ofNat 125

/-- Membership in the character class of the regex fragment composed of a
double quote, a single quote and a backtick. -/
def isQuoteChar (c : Char) : Bool :=
  c == '"' || c == singleQuoteChar || c == backtickChar

/-- Helper for the non-greedy regex fragment made of a dot-plus
followed by a closing quote class: consumes characters (a JS regex dot
matches anything except a line terminator) until the first quote-class
character, which closes the match.  The first character after the
opening quote has already been consumed by the caller. -/
def findCloseAux : List Char → List Char → Option (List Char × Char × List Char)
  | _, [] => none
  | accRev, c :: rest =>
    if isQuoteChar c then some (accRev.reverse, c, rest)
    else if c == '\n' || c == '\r' then none
    else findCloseAux (c :: accRev) rest

/-- After an opening quote, finds the shortest non-empty middle followed
by a closing quote-class character, per the non-greedy `(.+?)`. -/
def findCloseQuote : List Char → Option (List Char × Char × List Char)
  | [] => none
  | c :: rest =>
    if c == '\n' || c == '\r' then none
    else findCloseAux [c] rest

/-- Fuelled scanner realising `matchAll` of the quoted-token regex used
by `normalizeModes` on a brace-delimited list: leftmost matches,
non-overlapping, resuming after each match.  The fuel is the input
length, which bounds the number of scanning steps since every step
consumes at least one character. -/
def findQuotedAux (name : Unit) : Nat → List Char → List String
  | 0, _ => []
  | _, [] => []
  | fuel + 1, c :: rest =>
    if isQuoteChar c then
      match findCloseQuote rest with
      | some (middle, close, after) =>
        String.mk (c :: middle ++ [close]) :: findQuotedAux name fuel after
      | none => findQuotedAux name fuel rest
    else findQuotedAux name fuel rest

/-- All matches of the quoted-token regex in the given characters. -/
def findQuoted (cs : List Char) : List String :=
  findQuotedAux () cs.length cs

/-- The global replace of a backslash followed by a quote or backslash
with the bare character, applied by `extractStringLiteral`. -/
def unescapeQuotes : List Char → List Char
  | [] => []
  | '\\' :: c :: rest =>
    if isQuoteChar c || c == '\\' then c :: unescapeQuotes rest
    else '\\' :: unescapeQuotes (c :: rest)
  | c :: rest => c :: unescapeQuotes rest

/-- `extractStringLiteral` of `src/keymaps.ts` (lines 258 to 269): trims,
requires a leading quote, and either unescapes the quoted body when the
trailing character matches the leading quote or returns the tail
verbatim when it does not. -/
def extractStringLiteral (value : String) : Option String :=
  match (value.trim).toList with
  | [] => none
  | q :: rest =>
    if ¬ (isQuoteChar q = true) then none
    else
      match rest.getLast? with
      | none => some (String.mk (unescapeQuotes []))
      | some last =>
        if last = q then some (String.mk (unescapeQuotes rest.dropLast))
        else some (String.mk rest)

/-- The `VALID_MODES` set of `src/keymaps.ts`, as characters. -/
def VALID_MODES : List Char := ['n', 'i', 'v', 'x', 's', 'c', 't', 'o', 'R']

/-- `normalizeModes` of `src/keymaps.ts` (lines 230 to 256): a leading
brace collects the quoted tokens; a leading quote extracts the literal,
expanding a multi-character value character by character through
`VALID_MODES`; otherwise the literal falsy tokens map to the default
modes. -/
def normalizeModes (expr : String) : List String :=
  let trimmed := expr.trim
  if trimmed.startsWith "\x7b" then
    let found := findQuoted trimmed.toList
    if found.isEmpty then []
    else (found.filterMap extractStringLiteral).filter (fun s => s != "")
  else if (match trimmed.toList with | c :: _ => isQuoteChar c | [] => false) then
    match extractStringLiteral trimmed with
    | none => []
    | some value =>
      if value = "" then []
      else if 1 < value.length then
        let expanded := value.toList.filter (fun c => VALID_MODES.contains c)
        if expanded.isEmpty then [value]
        else expanded.map (fun c => String.singleton c)
      else [value]
  else if trimmed = "false" ∨ trimmed = "nil" ∨ trimmed = "0" ∨ trimmed = "\x7b\x7d" then
    ["n", "v", "o"]
  else []

/-- Opening brackets tracked by the argument splitter. -/
def isOpenBracket (c : Char) : Bool :=
  c == '(' || c == '[' || c == lbraceChar

/-- Closing brackets tracked by the argument splitter. -/
def isCloseBracket (c : Char) : Bool :=
  c == ')' || c == ']' || c == rbraceChar

/-- The `push` closure of `splitArguments`: appends the trimmed current
chunk when it is non-empty.  The argument list is kept reversed. -/
def pushArg (argsRev : List String) (currentRev : List Char) : List String :=
  let cur := (String.mk currentRev.reverse).trim
  if cur = "" then argsRev else cur :: argsRev

/-- The code after the scanning loop of `splitArguments`: a final push of
the trimmed current chunk when the limit has not been reached. -/
def finishArgs (limit : Nat) (argsRev : List String) (currentRev : List Char) :
    List String :=
  let cur := (String.mk currentRev.reverse).trim
  let args := argsRev.reverse
  if cur ≠ "" ∧ args.length < limit then args ++ [cur] else args

/-- The scanning loop of `splitArguments` (lines 175 to 221 of
`src/keymaps.ts`), carrying the previous raw character, the bracket
depth, the string state, the current chunk (reversed) and the collected
arguments (reversed).  Each `break` of the source is a call to
`finishArgs`. -/
def splitLoop (limit : Nat) : List Char → Option Char → Nat → Option Char →
    List Char → List String → List String
  | [], _, _, _, currentRev, argsRev => finishArgs limit argsRev currentRev
  | c :: rest, prev, depth, strq, currentRev, argsRev =>
    match strq with
    | some q =>
      if c = q ∧ prev ≠ some '\\' then
        splitLoop limit rest (some c) depth none (c :: currentRev) argsRev
      else
        splitLoop limit rest (some c) depth (some q) (c :: currentRev) argsRev
    | none =>
      if isQuoteChar c then
        splitLoop limit rest (some c) depth (some c) (c :: currentRev) argsRev
      else if isOpenBracket c then
        splitLoop limit rest (some c) (depth + 1) none (c :: currentRev) argsRev
      else if isCloseBracket c then
        let depth' := depth - 1
        if depth' = 0 ∧ c = ')' ∧ argsRev.length + 1 < limit then
          finishArgs limit (pushArg argsRev (c :: currentRev)) []
        else
          splitLoop limit rest (some c) depth' none (c :: currentRev) argsRev
      else if c = ',' ∧ depth = 0 then
        let argsRev' := pushArg argsRev currentRev
        if limit ≤ argsRev'.length then finishArgs limit argsRev' []
        else splitLoop limit rest (some c) depth none [] argsRev'
      else if c = '-' ∧ rest.head? = some '-' ∧ depth = 0 then
        finishArgs limit argsRev currentRev
      else
        splitLoop limit rest (some c) depth none (c :: currentRev) argsRev

/-- `splitArguments` of `src/keymaps.ts` (lines 161 to 228). -/
def splitArguments (input : String) (limit : Nat) : List String :=
  splitLoop limit input.toList none 0 none [] []

/-- Length of `content.split(/\r?\n/)`: one more than the number of
line separators, a separator being a newline optionally preceded by a
carriage return. -/
def countRNLines : List Char → Nat
  | [] => 1
  | '\r' :: '\n' :: rest => countRNLines rest + 1
  | '\n' :: rest => countRNLines rest + 1
  | _ :: rest => countRNLines rest

/-- One attempt of the call-pattern regex at the head of the input: the
literal function name, optional whitespace, an opening parenthesis, then
the non-greedy multiline capture up to the first closing parenthesis.
Returns the capture and the suffix after the match. -/
def matchCallAt (name : List Char) (input : List Char) :
    Option (List Char × List Char) :=
  if input.take name.length = name then
    let t1 := input.drop name.length
    let t2 := (t1.span (fun c => c.isWhitespace)).2
    match t2 with
    | '(' :: t3 =>
      let cap := t3.takeWhile (fun c => c != ')')
      match t3.drop cap.length with
      | ')' :: rest => some (cap, rest)
      | _ => none
    | _ => none
  else none

/-- Fuelled `matchAll` for one call pattern, reporting each capture with
the index of the start of its match.  Every scanning step consumes at
least one character, so the input length is enough fuel. -/
def scanCallsAux (name : List Char) : Nat → Nat → List Char → List (List Char × Nat)
  | 0, _, _ => []
  | _, _, [] => []
  | fuel + 1, idx, input@(_ :: rest) =>
    match matchCallAt name input with
    | some (cap, after) =>
      (cap, idx) :: scanCallsAux name fuel (idx + (input.length - after.length)) after
    | none => scanCallsAux name fuel (idx + 1) rest

/-- All matches of one call pattern over the content. -/
def scanCalls (name : String) (content : List Char) : List (List Char × Nat) :=
  scanCallsAux name.toList content.length 0 content

/-- The binding-call names of `LUA_KEYMAP_PATTERNS` in `src/keymaps.ts`. -/
def LUA_KEYMAP_PATTERNS : List String :=
  ["vim.keymap.set", "vim.api.nvim_set_keymap", "vim.api.nvim_buf_set_keymap"]

/-- `parseLuaKeymaps` of `src/keymaps.ts` (lines 95 to 125): for each
pattern and each match, split the raw arguments, normalise the mode
expression, extract the left-hand side, and emit one definition per
resolved mode with an estimated line number. -/
def parseLuaKeymaps (content : String) (source : String) : List KeymapDefinition :=
  let cs := content.toList
  LUA_KEYMAP_PATTERNS.flatMap fun pat =>
    (scanCalls pat cs).flatMap fun m =>
      let rawArgs := String.mk m.1
      if rawArgs = "" then []
      else
        let args := splitArguments rawArgs.trim 4
        if args.length < 2 then []
        else
          let modeExpr := args.getD 0 ""
          let lhsExpr := args.getD 1 ""
          let modes := normalizeModes modeExpr
          match extractStringLiteral lhsExpr with
          | none => []
          | some lhs =>
            if lhs = "" then []
            else if modes.isEmpty then []
            else
              modes.map fun mode =>
                ⟨mode, lhs, (args.get? 2).map (·.trim), source,
                  countRNLines (cs.take m.2)⟩

/-! Suggestion parser boundary of `src/ai.ts`.  The platform JSON
parser (`JSON.parse`) is an external builtin; it is modelled as an
arbitrary oracle of type `String → Option Json`, where `none` stands
for a thrown syntax error, which the source catches. -/

/-- A parsed JSON value. -/
inductive Json where
  | null
  | bool (b : Bool)
  | num (q : Rat)
  | str (s : String)
  | arr (elements : List Json)
  | obj (fields : List (String × Json))

/-- A validated externally-sourced proposal (`ModelSuggestion` in
`src/types.ts`). -/
structure ModelSuggestion where
  mode : String
  lhs : String
  sequence : List String
  recommendedMapping : Option String
  rationale : String
deriving DecidableEq, Repr

/-- Property access `record.name` on a parsed JSON value: a missing
field, or access on a non-object, yields a non-string value (JS
`undefined`, modelled as `null`, which every `typeof` test rejects). -/
def getField (value : Json) (name : String) : Json :=
  match value with
  | .obj fields =>
    match fields.find? (fun f => f.1 == name) with
    | some f => f.2
    | none => .null
  | _ => .null

/-- The test `typeof x === "string" ? x : null`. -/
def asString : Json → Option String
  | .str s => some s
  | _ => none

/-- `sanitizeSuggestion` of `src/ai.ts` (lines 164 to 184): requires an
object-typed value (a JS array also has `typeof` object but offers none
of the fields), string `mode` and `lhs`, an array `sequence` filtered to
its string elements; the falsy test on `mode` and `lhs` also rejects
empty strings, and an empty filtered `sequence` is rejected. -/
def sanitizeSuggestion (value : Json) : Option ModelSuggestion :=
  match value with
  | .obj _ | .arr _ =>
    let mode := asString (getField value "mode")
    let lhs := asString (getField value "lhs")
    let seq : Option (List String) :=
      match getField value "sequence" with
      | .arr xs => some (xs.filterMap asString)
      | _ => none
    let rationale := (asString (getField value "rationale")).getD ""
    let recommended := asString (getField value "recommendedMapping")
    match mode, lhs, seq with
    | some m, some l, some sq =>
      if m = "" ∨ l = "" ∨ sq = [] then none
      else some ⟨m, l, sq, recommended, rationale⟩
    | _, _, _ => none
  | _ => none

/-- `String.prototype.indexOf` for a single character, over the
character list. -/
def idxOfChar (c : Char) : List Char → Option Nat
  | [] => none
  | x :: xs => if x = c then some 0 else (idxOfChar c xs).map (· + 1)

/-- `String.prototype.lastIndexOf` for a single character. -/
def lastIdxOfChar (c : Char) (cs : List Char) : Option Nat :=
  (idxOfChar c cs.reverse).map (fun k => cs.length - 1 - k)

/-- `extractJsonArray` of `src/ai.ts` (lines 155 to 162): the span from
the first opening bracket to the last closing bracket, or nothing when
either is missing or they are not in increasing order. -/
def extractJsonArray (text : String) : Option String :=
  let cs := text.toList
  match idxOfChar '[' cs, lastIdxOfChar ']' cs with
  | some start, some stop =>
    if stop ≤ start then none
    else some (String.mk ((cs.drop start).take (stop + 1 - start)))
  | _, _ => none

/-- `parseSuggestions` of `src/ai.ts` (lines 139 to 153), parameterised
by the JSON-parsing oracle: no extracted span, a parse error, or a
non-array value all yield the empty list; an array is sanitised
element-wise, dropping the failures. -/
def parseSuggestions (parse : String → Option Json) (text : String) :
    List ModelSuggestion :=
  match extractJsonArray text with
  | none => []
  | some jsonText =>
    match parse jsonText with
    | none => []
    | some parsed =>
      match parsed with
      | .arr xs => xs.filterMap sanitizeSuggestion
      | _ => []

/-! Ghost instrumentation of the analyzer.  The ghost scan mirrors the
real one step for step but additionally records, for every signature,
which concrete observations contributed to it: the starting event, the
event that closed the growing sequence, every event scanned by the
window up to that point, and the recorded delta.  Erasing the ghost
data yields exactly the real `totals` map (proved below), so invariants
established for the ghost scan transfer to `findFrequentSequences`. -/

/-- One contributing observation of a signature: the base (starting)
event, the current (closing) event, all window events scanned so far
with the base in front, and the delta recorded for this observation. -/
structure Obs where
  base : KeystrokeEvent
  current : KeystrokeEvent
  events : List KeystrokeEvent
  delta : Rat
deriving DecidableEq, Repr

/-- How an entry of the totals map came into being: either from the
command pre-pass, or from the first keystroke observation of its
signature. -/
inductive Creation where
  | commandEntry (cmd : String)
  | keystrokeEntry (firstObs : Obs)
deriving DecidableEq, Repr

/-- An entry of the instrumented totals map. -/
structure GhostEntry where
  sig : String
  stat : SequenceStat
  creation : Creation
  obs : List Obs
deriving DecidableEq, Repr

/-- Forgets the ghost data of an entry. -/
def eraseEntry (g : GhostEntry) : String × SequenceStat := (g.sig, g.stat)

/-- Instrumented `updateTotals`: the incremental update additionally
appends the observation, and a fresh entry remembers it as its
creation. -/
def updateTotalsG (totals : List GhostEntry) (signature : String)
    (base : KeystrokeEvent) (sequence : List String) (delta : Rat) (o : Obs) :
    List GhostEntry :=
  match totals with
  | [] => [⟨signature, ⟨base.mode, sequence, 1, delta, base.file⟩,
           .keystrokeEntry o, [o]⟩]
  | g :: rest =>
    if g.sig = signature then
      ⟨g.sig, ⟨g.stat.mode, g.stat.keys, g.stat.count + 1,
        (g.stat.meanDeltaMs * (g.stat.count : Rat) + delta) / ((g.stat.count : Rat) + 1),
        g.stat.sampleFile⟩, g.creation, g.obs ++ [o]⟩ :: rest
    else g :: updateTotalsG rest signature base sequence delta o

/-- Instrumented `processWindow`, additionally carrying the reversed
list of window events consumed so far. -/
def processWindowG (minSeq : Nat) (base : KeystrokeEvent) :
    List KeystrokeEvent → List KeystrokeEvent → List String → List GhostEntry →
    List GhostEntry
  | [], _, _, totals => totals
  | current :: rest, consumedRev, sequence, totals =>
    if current.mode ≠ base.mode then totals
    else
      let consumedRev' := current :: consumedRev
      match normalizeKey current with
      | none => processWindowG minSeq base rest consumedRev' sequence totals
      | some key =>
        let sequence' := sequence ++ [key]
        if sequence'.length < minSeq then
          processWindowG minSeq base rest consumedRev' sequence' totals
        else
          processWindowG minSeq base rest consumedRev' sequence'
            (updateTotalsG totals (signatureOf base.mode sequence') base sequence'
              (computeDelta base.timestamp current.timestamp)
              ⟨base, current, base :: consumedRev'.reverse,
                computeDelta base.timestamp current.timestamp⟩)

/-- Instrumented `scanBases`. -/
def scanBasesG (cfg : ResolvedOptions) :
    List KeystrokeEvent → List GhostEntry → List GhostEntry
  | [], totals => totals
  | base :: rest, totals =>
    scanBasesG cfg rest
      (match normalizeKey base with
       | none => totals
       | some baseKey =>
         processWindowG cfg.minSequenceLength base (rest.take (cfg.windowSize - 1))
           [] [baseKey] totals)

/-- Instrumented `commandTotals`: a command entry records its command
string and starts with no keystroke observations. -/
def commandTotalsG (minOccurrences : Nat)
    (counts : List (String × Nat × Option String)) : List GhostEntry :=
  counts.filterMap fun x =>
    if minOccurrences ≤ x.2.1 then
      some ⟨"command:" ++ x.1, ⟨"command", [x.1], x.2.1, 0, x.2.2⟩,
        .commandEntry x.1, []⟩
    else none

/-- Instrumented `analyzerTotals`. -/
def ghostTotals (cfg : ResolvedOptions) (events : List KeystrokeEvent) :
    List GhostEntry :=
  scanBasesG cfg (events.filter (fun e => e.mode != "command"))
    (commandTotalsG cfg.minOccurrences
      (buildCommandCounts (events.filter (fun e => e.mode == "command"))))

/-- Well-formedness of one recorded observation: the delta is the one
computed from the base and current timestamps, every recorded event has
the base's mode, and the base heads the event list. -/
def ObsInv (o : Obs) : Prop :=
  o.delta = computeDelta o.base.timestamp o.current.timestamp ∧
  (∀ e ∈ o.events, e.mode = o.base.mode) ∧
  o.events.head? = some o.base

/-- Well-formedness of an entry relative to its creation: a command
entry carries the one-element key list of its command string and at
least as many counted occurrences as keystroke observations; a
keystroke entry counts exactly its observations, its keys are the
normalized keys of the creating observation's events, and the key list
length is within the configured bounds. -/
def CreationInv (cfg : ResolvedOptions) (stat : SequenceStat) (obsLen : Nat) :
    Creation → Prop
  | .commandEntry cmd =>
    stat.mode = "command" ∧ stat.keys = [cmd] ∧ obsLen ≤ stat.count
  | .keystrokeEntry o =>
    stat.count = obsLen ∧ 0 < stat.count ∧ stat.mode = o.base.mode ∧
    stat.mode ≠ "command" ∧ stat.keys = o.events.filterMap normalizeKey ∧
    (∀ e ∈ o.events, e.mode = o.base.mode) ∧
    cfg.minSequenceLength ≤ stat.keys.length ∧
    stat.keys.length ≤ cfg.windowSize

/-- The invariant carried by every entry of the instrumented totals
map. -/
def EntryInv (cfg : ResolvedOptions) (g : GhostEntry) : Prop :=
  g.stat.meanDeltaMs * (g.stat.count : Rat) = (g.obs.map Obs.delta).sum ∧
  (∀ o ∈ g.obs, ObsInv o) ∧
  CreationInv cfg g.stat g.obs.length g.creation

/-! Concrete inputs used by the claim theorems, their witnesses and
counterexamples. -/

/-- The event list of the specification's scenario for the analyzer:
three normal-mode keystrokes j, j, k at timestamps 0, 600000 and
1400000. -/
def c1Events : List KeystrokeEvent :=
  [⟨"j", "j", "n", 0, none⟩, ⟨"j", "j", "n", 600000, none⟩,
   ⟨"k", "k", "n", 1400000, none⟩]

/-- The options of the scenario: windowSize 4, minSequenceLength 2,
minOccurrences 1. -/
def c1Opts : Option AnalyzerOptions := some ⟨some 4, some 2, some 1⟩

/-- Two identical command-mode events. -/
def c2Events : List KeystrokeEvent :=
  [⟨":w", ":w", "command", 1000000, none⟩, ⟨":w", ":w", "command", 2000000, none⟩]

/-- Two same-mode special-key events. -/
def c4aEvents : List KeystrokeEvent :=
  [⟨"<a>", "<a>", "n", 1000000, none⟩, ⟨"<a>", "<a>", "n", 2000000, none⟩]

/-- Options with windowSize 1, minSequenceLength 2, minOccurrences 1. -/
def c4aOpts : Option AnalyzerOptions := some ⟨some 1, some 2, some 1⟩

/-- Three same-mode special-key events. -/
def c4bEvents : List KeystrokeEvent :=
  [⟨"<a>", "<a>", "n", 1000000, none⟩, ⟨"<a>", "<a>", "n", 2000000, none⟩,
   ⟨"<b>", "<b>", "n", 3000000, none⟩]

/-- Options with windowSize 2, minSequenceLength 2, minOccurrences 1. -/
def c4bOpts : Option AnalyzerOptions := some ⟨some 2, some 2, some 1⟩

/-- Four visual-mode events alternating between two keys, so that the
two-key gesture a b occurs twice and every other gesture once. -/
def c6Events : List KeystrokeEvent :=
  [⟨"a", "a", "v", 1000000, none⟩, ⟨"b", "b", "v", 2000000, none⟩,
   ⟨"a", "a", "v", 3000000, none⟩, ⟨"b", "b", "v", 4000000, none⟩]

/-- Options with windowSize 5, minSequenceLength 2, minOccurrences 1. -/
def c6Opts : Option AnalyzerOptions := some ⟨some 5, some 2, some 1⟩

/-- Two visual-mode events with the same key. -/
def c8wEvents : List KeystrokeEvent :=
  [⟨"a", "a", "v", 1000000, none⟩, ⟨"a", "a", "v", 2000000, none⟩]

/-- Options with windowSize 5, minSequenceLength 2, minOccurrences 1. -/
def c8wOpts : Option AnalyzerOptions := some ⟨some 5, some 2, some 1⟩

/-- The single observation recorded for the two-event input above. -/
def c8wObs : Obs :=
  ⟨⟨"a", "a", "v", 1000000, none⟩, ⟨"a", "a", "v", 2000000, none⟩,
   [⟨"a", "a", "v", 1000000, none⟩, ⟨"a", "a", "v", 2000000, none⟩], 1⟩

/-- The single instrumented totals entry for the two-event input above. -/
def c8wEntry : GhostEntry :=
  ⟨"v:a a", ⟨"v", ["a", "a"], 1, 1, none⟩, Creation.keystrokeEntry c8wObs, [c8wObs]⟩

/-- A canned JSON-parsing oracle used by the parser witness: it parses
exactly the text of a one-element numeric array. -/
def demoParse : String → Option Json :=
  fun s => if s = "[1]" then some (Json.arr [Json.num 1]) else none

theorem eraseEntry_updateTotalsG (totals : List GhostEntry) (signature : String)
    (base : KeystrokeEvent) (sequence : List String) (delta : Rat) (o : Obs) :
    (updateTotalsG totals signature base sequence delta o).map eraseEntry =
      updateTotals (totals.map eraseEntry) signature base sequence delta := by
  induction totals with
  | nil => rfl
  | cons g rest ih =>
    by_cases h : g.sig = signature
    · simp [updateTotalsG, updateTotals, eraseEntry, h]
    · simp [updateTotalsG, updateTotals, eraseEntry, h, ih]

theorem eraseEntry_processWindowG (minSeq : Nat) (base : KeystrokeEvent)
    (w : List KeystrokeEvent) :
    ∀ consumedRev sequence totals,
    (processWindowG minSeq base w consumedRev sequence totals).map eraseEntry =
      processWindow minSeq base w sequence (totals.map eraseEntry) := by
  induction w with
  | nil => intro _ _ _; rfl
  | cons current rest ih =>
    intro consumedRev sequence totals
    by_cases h : current.mode = base.mode
    · simp only [processWindowG, processWindow, h]
      cases hk : normalizeKey current with
      | none => simp [hk, ih]
      | some key =>
        by_cases hl : sequence.length + 1 < minSeq
        · simp [hk, hl, ih]
        · simp [hk, hl, ih, eraseEntry_updateTotalsG]
    · simp [processWindowG, processWindow, h]

theorem eraseEntry_scanBasesG (cfg : ResolvedOptions) :
    ∀ bases totals,
    (scanBasesG cfg bases totals).map eraseEntry =
      scanBases cfg bases (totals.map eraseEntry) := by
  intro bases
  induction bases with
  | nil => intro _; rfl
  | cons base rest ih =>
    intro totals
    cases hk : normalizeKey base with
    | none => simp [scanBasesG, scanBases, hk, ih]
    | some baseKey =>
      simp [scanBasesG, scanBases, hk, ih, eraseEntry_processWindowG]

theorem eraseEntry_commandTotalsG (minOccurrences : Nat)
    (counts : List (String × Nat × Option String)) :
    (commandTotalsG minOccurrences counts).map eraseEntry =
      commandTotals minOccurrences counts := by
  unfold commandTotalsG commandTotals
  induction counts with
  | nil => rfl
  | cons x rest ih =>
    rw [List.filterMap_cons, List.filterMap_cons]
    by_cases h : minOccurrences ≤ x.2.1
    · simp only [if_pos h, List.map_cons, eraseEntry]
      rw [ih]
    · simp only [if_neg h]
      exact ih

theorem eraseEntry_ghostTotals (cfg : ResolvedOptions)
    (events : List KeystrokeEvent) :
    (ghostTotals cfg events).map eraseEntry = analyzerTotals cfg events := by
  unfold ghostTotals analyzerTotals
  rw [eraseEntry_scanBasesG, eraseEntry_commandTotalsG]

theorem updateTotalsG_inv (cfg : ResolvedOptions) (totals : List GhostEntry)
    (signature : String) (base : KeystrokeEvent) (sequence : List String)
    (delta : Rat) (o : Obs)
    (htot : ∀ g ∈ totals, EntryInv cfg g)
    (ho : ObsInv o)
    (hbase : o.base = base)
    (hdelta : o.delta = delta)
    (hkeys : sequence = o.events.filterMap normalizeKey)
    (hmode : base.mode ≠ "command")
    (hmin : cfg.minSequenceLength ≤ sequence.length)
    (hmax : sequence.length ≤ cfg.windowSize) :
    ∀ g ∈ updateTotalsG totals signature base sequence delta o, EntryInv cfg g := by
  induction totals with
  | nil =>
    intro g hg
    simp only [updateTotalsG, List.mem_singleton] at hg
    subst hg
    refine ⟨?_, ?_, ?_⟩
    · simp [hdelta]
    · intro o2 ho2
      simp only [List.mem_singleton] at ho2
      subst ho2
      exact ho
    · refine ⟨rfl, Nat.one_pos, hbase ▸ rfl, hmode, hkeys, ?_, ?_, ?_⟩
      · exact hbase ▸ ho.2.1
      · simpa using hmin
      · simpa using hmax
  | cons g0 rest ih =>
    intro g hg
    by_cases h : g0.sig = signature
    · simp only [updateTotalsG, if_pos h, List.mem_cons] at hg
      rcases hg with hg | hg
      · subst hg
        obtain ⟨hmean, hobs, hcre⟩ := htot g0 (List.mem_cons_self _ _)
        refine ⟨?_, ?_, ?_⟩
        · show (g0.stat.meanDeltaMs * (g0.stat.count : Rat) + delta) /
              ((g0.stat.count : Rat) + 1) * ((g0.stat.count + 1 : Nat) : Rat) =
            ((g0.obs ++ [o]).map Obs.delta).sum
          push_cast
          rw [div_mul_cancel₀ _ (by positivity : ((g0.stat.count : Rat) + 1) ≠ 0)]
          simp [hmean, hdelta]
        · intro o2 ho2
          rcases List.mem_append.mp ho2 with ho2 | ho2
          · exact hobs o2 ho2
          · simp only [List.mem_singleton] at ho2
            subst ho2
            exact ho
        · show CreationInv cfg _ (g0.obs ++ [o]).length g0.creation
          cases hc : g0.creation with
          | commandEntry cmd =>
            rw [hc] at hcre
            obtain ⟨h1, h2, h3⟩ := hcre
            exact ⟨h1, h2, by simpa using Nat.add_le_add_right h3 1⟩
          | keystrokeEntry o1 =>
            rw [hc] at hcre
            obtain ⟨h1, h2, h3, h4, h5, h6, h7, h8⟩ := hcre
            exact ⟨by simpa using h1, Nat.succ_pos _, h3, h4, h5, h6, h7, h8⟩
      · exact htot g (List.mem_cons_of_mem _ hg)
    · simp only [updateTotalsG, if_neg h, List.mem_cons] at hg
      rcases hg with hg | hg
      · subst hg
        exact htot g (List.mem_cons_self _ _)
      · exact ih (fun g2 hg2 => htot g2 (List.mem_cons_of_mem _ hg2)) g hg

theorem processWindowG_inv (cfg : ResolvedOptions) (base : KeystrokeEvent)
    (hbase : base.mode ≠ "command") (w : List KeystrokeEvent) :
    ∀ consumedRev sequence totals,
    (∀ e ∈ consumedRev, e.mode = base.mode) →
    sequence = (base :: consumedRev.reverse).filterMap normalizeKey →
    (sequence.length + w.length ≤ cfg.windowSize ∨ w = []) →
    (∀ g ∈ totals, EntryInv cfg g) →
    ∀ g ∈ processWindowG cfg.minSequenceLength base w consumedRev sequence totals,
      EntryInv cfg g := by
  induction w with
  | nil =>
    intro consumedRev sequence totals _ _ _ htot g hg
    exact htot g hg
  | cons current rest ih =>
    intro consumedRev sequence totals hcons hseq hlen htot g hg
    have hlen' : sequence.length + (current :: rest).length ≤ cfg.windowSize := by
      rcases hlen with hlen | hlen
      · exact hlen
      · cases hlen
    by_cases h : current.mode = base.mode
    · have hcons' : ∀ e ∈ current :: consumedRev, e.mode = base.mode := by
        intro e he
        rcases List.mem_cons.mp he with he | he
        · exact he ▸ h
        · exact hcons e he
      cases hk : normalizeKey current with
      | none =>
        simp only [processWindowG, h, ne_eq, not_true_eq_false, if_false, hk] at hg
        have hseq' : sequence =
            (base :: (current :: consumedRev).reverse).filterMap normalizeKey := by
          rw [hseq, List.reverse_cons, ← List.cons_append, List.filterMap_append]
          simp [hk]
        refine ih (current :: consumedRev) sequence totals hcons' hseq' ?_ htot g hg
        left
        simp only [List.length_cons] at hlen' ⊢
        omega
      | some key =>
        simp only [processWindowG, h, ne_eq, not_true_eq_false, if_false, hk] at hg
        have hseq' : sequence ++ [key] =
            (base :: (current :: consumedRev).reverse).filterMap normalizeKey := by
          rw [hseq, List.reverse_cons, ← List.cons_append, List.filterMap_append]
          simp [hk]
        have hlen2 : (sequence ++ [key]).length + rest.length ≤ cfg.windowSize := by
          simp only [List.length_append, List.length_cons, List.length_nil] at hlen' ⊢
          omega
        by_cases hl : (sequence ++ [key]).length < cfg.minSequenceLength
        · rw [if_pos hl] at hg
          exact ih (current :: consumedRev) (sequence ++ [key]) totals hcons' hseq'
            (Or.inl hlen2) htot g hg
        · rw [if_neg hl] at hg
          refine ih (current :: consumedRev) (sequence ++ [key]) _ hcons' hseq'
            (Or.inl hlen2) ?_ g hg
          refine updateTotalsG_inv cfg totals _ base (sequence ++ [key]) _ _ htot
            ⟨rfl, ?_, rfl⟩ rfl rfl ?_ hbase (le_of_not_lt hl) ?_
          · intro e he
            rcases List.mem_cons.mp he with he | he
            · exact he ▸ rfl
            · have he' : e ∈ consumedRev ∨ e = current := by
                simpa using he
              rcases he' with he2 | he2
              · exact hcons e he2
              · exact he2 ▸ h
          · exact hseq'
          · have := hlen2
            simp only [List.length_append, List.length_cons, List.length_nil] at this ⊢
            omega
    · simp only [processWindowG, h, ne_eq, not_false_eq_true, if_true] at hg
      exact htot g hg

theorem scanBasesG_inv (cfg : ResolvedOptions) :
    ∀ bases totals,
    (∀ e ∈ bases, e.mode ≠ "command") →
    (∀ g ∈ totals, EntryInv cfg g) →
    ∀ g ∈ scanBasesG cfg bases totals, EntryInv cfg g := by
  intro bases
  induction bases with
  | nil =>
    intro totals _ htot g hg
    exact htot g hg
  | cons base rest ih =>
    intro totals hmode htot g hg
    have hrest : ∀ e ∈ rest, e.mode ≠ "command" :=
      fun e he => hmode e (List.mem_cons_of_mem _ he)
    cases hk : normalizeKey base with
    | none =>
      rw [scanBasesG, hk] at hg
      exact ih totals hrest htot g hg
    | some baseKey =>
      rw [scanBasesG, hk] at hg
      refine ih _ hrest ?_ g hg
      refine processWindowG_inv cfg base (hmode base (List.mem_cons_self _ _))
        (rest.take (cfg.windowSize - 1)) [] [baseKey] totals ?_ ?_ ?_ htot
      · intro e he
        cases he
      · simp [hk]
      · rcases Nat.eq_zero_or_pos cfg.windowSize with hw | hw
        · right
          simp [hw]
        · left
          have := List.length_take_le (cfg.windowSize - 1) rest
          simp only [List.length_singleton]
          omega

theorem commandTotalsG_inv (cfg : ResolvedOptions) (minOccurrences : Nat)
    (counts : List (String × Nat × Option String)) :
    ∀ g ∈ commandTotalsG minOccurrences counts, EntryInv cfg g := by
  intro g hg
  unfold commandTotalsG at hg
  rw [List.mem_filterMap] at hg
  obtain ⟨x, _, hx⟩ := hg
  by_cases h : minOccurrences ≤ x.2.1
  · rw [if_pos h] at hx
    cases hx
    refine ⟨by simp, ?_, rfl, rfl, ?_⟩
    · intro o ho
      cases ho
    · simp
  · rw [if_neg h] at hx
    cases hx

theorem ghostTotals_inv (cfg : ResolvedOptions) (events : List KeystrokeEvent) :
    ∀ g ∈ ghostTotals cfg events, EntryInv cfg g := by
  refine scanBasesG_inv cfg _ _ ?_ (commandTotalsG_inv cfg _ _)
  intro e he
  rw [List.mem_filter] at he
  simpa using he.2

theorem findFrequentSequences_sorted (events : List KeystrokeEvent)
    (options : Option AnalyzerOptions) :
    (findFrequentSequences events options).Sorted statLE := by
  simp only [findFrequentSequences]
  split
  · exact List.sorted_nil
  · exact List.sorted_insertionSort statLE _

theorem mem_findFrequentSequences_totals (events : List KeystrokeEvent)
    (options : Option AnalyzerOptions) (s : SequenceStat)
    (hs : s ∈ findFrequentSequences events options) :
    (combineOptions options).minOccurrences ≤ s.count ∧
    isInterestingSequence s = true ∧
    ∃ g ∈ ghostTotals (combineOptions options) events, g.stat = s := by
  simp only [findFrequentSequences] at hs
  by_cases he : events.length = 0
  · rw [if_pos he] at hs
    cases hs
  · rw [if_neg he] at hs
    rw [List.mem_insertionSort, List.mem_filter] at hs
    obtain ⟨hs1, hint⟩ := hs
    rw [List.mem_filter] at hs1
    obtain ⟨hs2, hocc⟩ := hs1
    refine ⟨by simpa using hocc, hint, ?_⟩
    rw [List.mem_map] at hs2
    obtain ⟨p, hp, hps⟩ := hs2
    rw [← eraseEntry_ghostTotals, List.mem_map] at hp
    obtain ⟨g, hg, hgp⟩ := hp
    refine ⟨g, hg, ?_⟩
    rw [← hps, ← hgp]
    rfl

theorem sanitizeSuggestion_fields (v : Json) (s : ModelSuggestion)
    (h : sanitizeSuggestion v = some s) :
    s.mode ≠ "" ∧ s.lhs ≠ "" ∧ s.sequence ≠ [] := by
  cases v with
  | null => exact Option.noConfusion h
  | bool b => exact Option.noConfusion h
  | num q => exact Option.noConfusion h
  | str st => exact Option.noConfusion h
  | arr xs => simp [sanitizeSuggestion, getField, asString] at h
  | obj fields =>
    simp only [sanitizeSuggestion] at h
    rcases hm : asString (getField (Json.obj fields) "mode") with _ | m <;>
      rw [hm] at h
    · exact Option.noConfusion h
    · rcases hl : asString (getField (Json.obj fields) "lhs") with _ | l <;>
        rw [hl] at h
      · exact Option.noConfusion h
      · rcases hsq : getField (Json.obj fields) "sequence" with _ | b | q | st | ys | flds <;>
          rw [hsq] at h
        · exact Option.noConfusion h
        · exact Option.noConfusion h
        · exact Option.noConfusion h
        · exact Option.noConfusion h
        · have h2 : (if m = "" ∨ l = "" ∨ List.filterMap asString ys = []
              then (none : Option ModelSuggestion)
              else some ⟨m, l, List.filterMap asString ys,
                asString (getField (Json.obj fields) "recommendedMapping"),
                (asString (getField (Json.obj fields) "rationale")).getD ""⟩) =
              some s := h
          by_cases hcond : m = "" ∨ l = "" ∨ List.filterMap asString ys = []
          · rw [if_pos hcond] at h2
            exact Option.noConfusion h2
          · rw [if_neg hcond] at h2
            cases h2
            push_neg at hcond
            exact ⟨hcond.1, hcond.2.1, hcond.2.2⟩
        · exact Option.noConfusion h

theorem idxOfChar_append_of_not_mem (c : Char) (xs ys : List Char) (h : c ∉ xs) :
    idxOfChar c (xs ++ ys) = (idxOfChar c ys).map (· + xs.length) := by
  induction xs with
  | nil =>
    cases hy : idxOfChar c ys <;> simp [hy]
  | cons x xs ih =>
    have hx : ¬ x = c := fun he => h (he ▸ List.mem_cons_self x xs)
    have ih2 := ih (fun hc => h (List.mem_cons_of_mem _ hc))
    show (if x = c then some 0 else (idxOfChar c (xs ++ ys)).map (· + 1)) =
      (idxOfChar c ys).map (· + (x :: xs).length)
    rw [if_neg hx, ih2]
    cases hy : idxOfChar c ys <;> simp [Nat.add_assoc]

/-! The claim theorems. -/

/-- C1: for the scenario event list (three normal-mode keystrokes j, j, k
at timestamps 0, 600000, 1400000) with windowSize 4, minSequenceLength 2
and minOccurrences 1, the claim requires a retained entry with mode "n"
and keys j j.  The code records the candidate — the totals map holds the
signature "n:j j" with count 1 — but the interestingness filter then
drops it (a normal-mode repeated motion is kept only from length three),
so `findFrequentSequences` returns the empty list, contradicting both
the claim and the repository's own analyzer test, which expects the
two-key j j entry to be found. -/
theorem C1_code_evaluation :
    findFrequentSequences c1Events c1Opts = [] ∧
    ("n:j j", (⟨"n", ["j", "j"], 1, 0, none⟩ : SequenceStat)) ∈
      analyzerTotals (combineOptions c1Opts) c1Events ∧
    isInterestingSequence ⟨"n", ["j", "j"], 1, 0, none⟩ = false := by
  refine ⟨by with_unfolding_all rfl, by with_unfolding_all decide, ?_⟩
  with_unfolding_all rfl

/-- C2 counterexample: with the default options (minSequenceLength 2)
and two identical command-mode events, the output contains the command
entry, whose key list has length 1, violating the claimed invariant
`keys.length >= minSequenceLength` for every element. -/
theorem C2_counterexample :
    ¬ ∀ s ∈ findFrequentSequences c2Events none,
        (combineOptions none).minSequenceLength ≤ s.keys.length := by
  with_unfolding_all decide

/-- C2 amended: every element of the output of `findFrequentSequences`
satisfies `count >= minOccurrences`, and every element other than a
command entry (whose key list is always the single command string)
satisfies `keys.length >= minSequenceLength`, with the effective option
values after defaulting. -/
theorem C2_amended (events : List KeystrokeEvent)
    (options : Option AnalyzerOptions) (s : SequenceStat)
    (hs : s ∈ findFrequentSequences events options) :
    (combineOptions options).minOccurrences ≤ s.count ∧
    (s.mode ≠ "command" →
      (combineOptions options).minSequenceLength ≤ s.keys.length) := by
  obtain ⟨hocc, _, g, hg, hgs⟩ := mem_findFrequentSequences_totals events options s hs
  refine ⟨hocc, fun hmode => ?_⟩
  obtain ⟨_, _, hcre⟩ := ghostTotals_inv _ events g hg
  cases hc : g.creation with
  | commandEntry cmd =>
    rw [hc] at hcre
    exact absurd (hgs ▸ hcre.1) hmode
  | keystrokeEntry o =>
    rw [hc] at hcre
    exact hgs ▸ hcre.2.2.2.2.2.2.1

/-- C2 witness: the amended statement applied to the concrete retained
visual-mode entry of the alternating four-event input. -/
theorem C2_witness :
    (⟨"v", ["a", "b"], 2, 1, none⟩ : SequenceStat) ∈
      findFrequentSequences c6Events c6Opts ∧
    (combineOptions c6Opts).minOccurrences ≤
      (⟨"v", ["a", "b"], 2, 1, none⟩ : SequenceStat).count ∧
    ((⟨"v", ["a", "b"], 2, 1, none⟩ : SequenceStat).mode ≠ "command" →
      (combineOptions c6Opts).minSequenceLength ≤
        (⟨"v", ["a", "b"], 2, 1, none⟩ : SequenceStat).keys.length) :=
  ⟨by with_unfolding_all decide,
   C2_amended c6Events c6Opts _ (by with_unfolding_all decide)⟩

/-- C3: the claim requires the empty-table token to expand to the three
default modes, as the falsy tokens do.  In `normalizeModes` the check
for the empty-table token sits in the falsy branch, but the earlier
leading-brace branch intercepts every brace-initial expression first, so
that check is unreachable: the empty-table token yields no modes at all
and a binding call using it emits no definitions, while the falsy tokens
do expand to the three default modes. -/
theorem C3_code_evaluation :
    normalizeModes "\x7b\x7d" = [] ∧
    parseLuaKeymaps "vim.keymap.set(\x7b\x7d, \"<leader>x\", \":q<CR>\")" "init.lua" = [] ∧
    normalizeModes "false" = ["n", "v", "o"] ∧
    normalizeModes "nil" = ["n", "v", "o"] ∧
    normalizeModes "0" = ["n", "v", "o"] ∧
    (parseLuaKeymaps "vim.keymap.set(false, \"<leader>x\", \":q<CR>\")" "init.lua").map
      (fun d => d.mode) = ["n", "v", "o"] := by
  refine ⟨?_, ?_, ?_, ?_, ?_, ?_⟩ <;> with_unfolding_all rfl

/-- C4 counterexample: with windowSize 1 the claim says the scan from
index 0 still reads the event at index 1 (it shares the mode), which
with minSequenceLength 2 and minOccurrences 1 would record and retain
the two-key special-key candidate; the code scans only windowSize minus
one subsequent events, so nothing is recorded and the output is empty. -/
theorem C4_counterexample :
    findFrequentSequences c4aEvents c4aOpts = [] := by
  with_unfolding_all rfl

/-- C4 amended: the candidate-growth scan from a starting index
considers up to windowSize minus one subsequent events, so every
non-command entry's key list has length at most windowSize, and some
input realises length exactly windowSize (here windowSize 2). -/
theorem C4_amended :
    (∀ (events : List KeystrokeEvent) (options : Option AnalyzerOptions)
        (s : SequenceStat), s ∈ findFrequentSequences events options →
      s.mode = "command" ∨ s.keys.length ≤ (combineOptions options).windowSize) ∧
    (∃ s ∈ findFrequentSequences c4bEvents c4bOpts,
      s.keys.length = (combineOptions c4bOpts).windowSize) := by
  constructor
  · intro events options s hs
    obtain ⟨_, _, g, hg, hgs⟩ := mem_findFrequentSequences_totals events options s hs
    obtain ⟨_, _, hcre⟩ := ghostTotals_inv _ events g hg
    cases hc : g.creation with
    | commandEntry cmd =>
      rw [hc] at hcre
      exact Or.inl (hgs ▸ hcre.1)
    | keystrokeEntry o =>
      rw [hc] at hcre
      exact Or.inr (hgs ▸ hcre.2.2.2.2.2.2.2)
  · exact ⟨⟨"n", ["<a>", "<a>"], 1, 1, none⟩, by with_unfolding_all decide,
      by with_unfolding_all rfl⟩

/-- C4 witness: the amended bound applied to a concrete retained entry
of the three-event input with windowSize 2. -/
theorem C4_witness :
    (⟨"n", ["<a>", "<a>"], 1, 1, none⟩ : SequenceStat) ∈
      findFrequentSequences c4bEvents c4bOpts ∧
    ((⟨"n", ["<a>", "<a>"], 1, 1, none⟩ : SequenceStat).mode = "command" ∨
      (⟨"n", ["<a>", "<a>"], 1, 1, none⟩ : SequenceStat).keys.length ≤
        (combineOptions c4bOpts).windowSize) :=
  ⟨by with_unfolding_all decide,
   C4_amended.1 c4bEvents c4bOpts _ (by with_unfolding_all decide)⟩

/-- C5: applying the structural-call extraction to the content
`vim.keymap.set` of a two-element mode table, the left-hand side
`<leader>r` and a command right-hand side yields exactly two
definitions, one for mode n and one for mode v, both with that
left-hand side. -/
theorem C5_round_trip :
    parseLuaKeymaps
        "vim.keymap.set(\x7b\"n\",\"v\"\x7d, \"<leader>r\", \":source %<CR>\")"
        "init.lua" =
      [⟨"n", "<leader>r", some "\":source %<CR>\"", "init.lua", 1⟩,
       ⟨"v", "<leader>r", some "\":source %<CR>\"", "init.lua", 1⟩] := by
  with_unfolding_all rfl

/-- C6: the output of `findFrequentSequences` is ordered so that an
entry with the larger count precedes one with a smaller count, and among
entries of equal count the one with the smaller mean delta precedes the
other. -/
theorem C6_ranking (events : List KeystrokeEvent)
    (options : Option AnalyzerOptions) (i j : Nat) (A B : SequenceStat)
    (hA : (findFrequentSequences events options).get? i = some A)
    (hB : (findFrequentSequences events options).get? j = some B) :
    (B.count < A.count → i < j) ∧
    (A.count = B.count → A.meanDeltaMs < B.meanDeltaMs → i < j) := by
  have hsorted := findFrequentSequences_sorted events options
  have hrel : ∀ {p q : Nat} {X Y : SequenceStat},
      (findFrequentSequences events options).get? p = some X →
      (findFrequentSequences events options).get? q = some Y →
      p < q → statLE X Y := by
    intro p q X Y hX hY hpq
    obtain ⟨hp, hXe⟩ := List.get?_eq_some.mp hX
    obtain ⟨hq, hYe⟩ := List.get?_eq_some.mp hY
    have h := hsorted.rel_get_of_lt (a := ⟨p, hp⟩) (b := ⟨q, hq⟩)
      (Fin.mk_lt_mk.mpr hpq)
    rwa [hXe, hYe] at h
  constructor
  · intro hcnt
    rcases Nat.lt_trichotomy i j with h | h | h
    · exact h
    · subst h
      rw [hA] at hB
      cases hB
      exact absurd hcnt (lt_irrefl _)
    · rcases hrel hB hA h with h2 | ⟨h2, _⟩
      · exact absurd (h2.trans hcnt) (lt_irrefl _)
      · rw [h2] at hcnt
        exact absurd hcnt (lt_irrefl _)
  · intro hcnt hmean
    rcases Nat.lt_trichotomy i j with h | h | h
    · exact h
    · subst h
      rw [hA] at hB
      cases hB
      exact absurd hmean (lt_irrefl _)
    · rcases hrel hB hA h with h2 | ⟨h2, h3⟩
      · rw [hcnt] at h2
        exact absurd h2 (lt_irrefl _)
      · exact absurd (lt_of_lt_of_le hmean h3) (lt_irrefl _)

/-- C6 witness: in the output for the alternating visual-mode input the
count-2 entry at position 0 precedes the count-1 entry at position 1. -/
theorem C6_witness :
    (findFrequentSequences c6Events c6Opts).get? 0 =
      some ⟨"v", ["a", "b"], 2, 1, none⟩ ∧
    (findFrequentSequences c6Events c6Opts).get? 1 =
      some ⟨"v", ["b", "a"], 1, 1, none⟩ ∧
    0 < 1 := by
  refine ⟨by with_unfolding_all rfl, by with_unfolding_all rfl, ?_⟩
  exact (C6_ranking c6Events c6Opts 0 1 ⟨"v", ["a", "b"], 2, 1, none⟩
    ⟨"v", ["b", "a"], 1, 1, none⟩ (by with_unfolding_all rfl)
    (by with_unfolding_all rfl)).1 (by decide)

/-- C7: every entry of the output traces back to an instrumented totals
entry whose recorded observations each scan a window of events that all
carry the starting event's mode (the break on a mode change), and whose
key list comes either from the single-mode event window of the creating
observation or from a single command string — so no key list spans
events of two different modes. -/
theorem C7_mode_boundary (events : List KeystrokeEvent)
    (options : Option AnalyzerOptions) (s : SequenceStat)
    (hs : s ∈ findFrequentSequences events options) :
    ∃ g ∈ ghostTotals (combineOptions options) events, g.stat = s ∧
      (∀ o ∈ g.obs, ∀ e ∈ o.events, e.mode = o.base.mode) ∧
      (∀ o, g.creation = Creation.keystrokeEntry o →
        s.keys = o.events.filterMap normalizeKey ∧ s.mode = o.base.mode ∧
        ∀ e ∈ o.events, e.mode = s.mode) ∧
      (∀ cmd, g.creation = Creation.commandEntry cmd →
        s.keys = [cmd] ∧ s.mode = "command") := by
  obtain ⟨_, _, g, hg, hgs⟩ := mem_findFrequentSequences_totals events options s hs
  obtain ⟨_, hobs, hcre⟩ := ghostTotals_inv _ events g hg
  refine ⟨g, hg, hgs, fun o ho e he => (hobs o ho).2.1 e he, ?_, ?_⟩
  · intro o hco
    rw [hco] at hcre
    obtain ⟨_, _, h3, _, h5, h6, _, _⟩ := hcre
    subst hgs
    exact ⟨h5, h3, fun e he => (h6 e he).trans h3.symm⟩
  · intro cmd hcc
    rw [hcc] at hcre
    subst hgs
    exact ⟨hcre.2.1, hcre.1⟩

/-- C7 witness: the mode-boundary statement applied to the concrete
count-2 visual-mode entry of the alternating four-event input. -/
theorem C7_witness :
    ∃ g ∈ ghostTotals (combineOptions c6Opts) c6Events,
      g.stat = (⟨"v", ["a", "b"], 2, 1, none⟩ : SequenceStat) ∧
      (∀ o ∈ g.obs, ∀ e ∈ o.events, e.mode = o.base.mode) ∧
      (∀ o, g.creation = Creation.keystrokeEntry o →
        (⟨"v", ["a", "b"], 2, 1, none⟩ : SequenceStat).keys =
            o.events.filterMap normalizeKey ∧
          (⟨"v", ["a", "b"], 2, 1, none⟩ : SequenceStat).mode = o.base.mode ∧
          ∀ e ∈ o.events,
            e.mode = (⟨"v", ["a", "b"], 2, 1, none⟩ : SequenceStat).mode) ∧
      (∀ cmd, g.creation = Creation.commandEntry cmd →
        (⟨"v", ["a", "b"], 2, 1, none⟩ : SequenceStat).keys = [cmd] ∧
          (⟨"v", ["a", "b"], 2, 1, none⟩ : SequenceStat).mode = "command") :=
  C7_mode_boundary c6Events c6Opts _ (by with_unfolding_all decide)

/-- C8: the instrumented totals erase to the analyzer's totals, every
recorded observation's delta is the one computed from its base and
current timestamps, every entry satisfies the exact running-sum law
mean times count equals the sum of the recorded deltas, and every entry
created by the keystroke path (the only entries maintained through the
incremental update) counts exactly its observations and stores exactly
their arithmetic mean, over exact rational arithmetic. -/
theorem C8_incremental_mean (events : List KeystrokeEvent)
    (options : Option AnalyzerOptions) :
    (ghostTotals (combineOptions options) events).map eraseEntry =
      analyzerTotals (combineOptions options) events ∧
    ∀ g ∈ ghostTotals (combineOptions options) events,
      (∀ o ∈ g.obs, o.delta = computeDelta o.base.timestamp o.current.timestamp) ∧
      g.stat.meanDeltaMs * (g.stat.count : Rat) = (g.obs.map Obs.delta).sum ∧
      (∀ o, g.creation = Creation.keystrokeEntry o →
        g.stat.count = g.obs.length ∧ 0 < g.obs.length ∧
        g.stat.meanDeltaMs = (g.obs.map Obs.delta).sum / (g.obs.length : Rat)) := by
  refine ⟨eraseEntry_ghostTotals _ _, ?_⟩
  intro g hg
  obtain ⟨hmean, hobs, hcre⟩ := ghostTotals_inv _ events g hg
  refine ⟨fun o ho => (hobs o ho).1, hmean, ?_⟩
  intro o hco
  rw [hco] at hcre
  obtain ⟨h1, h2, _⟩ := hcre
  have hlen : 0 < g.obs.length := h1 ▸ h2
  have hne : (g.obs.length : Rat) ≠ 0 := by
    exact_mod_cast Nat.pos_iff_ne_zero.mp hlen
  refine ⟨h1, hlen, ?_⟩
  rw [← hmean, h1, mul_div_cancel_right₀ _ hne]

/-- C8 witness: the incremental-mean law applied to the single
instrumented entry of the two-event visual-mode input. -/
theorem C8_witness :
    c8wEntry.stat.count = c8wEntry.obs.length ∧ 0 < c8wEntry.obs.length ∧
    c8wEntry.stat.meanDeltaMs =
      (c8wEntry.obs.map Obs.delta).sum / (c8wEntry.obs.length : Rat) := by
  have hmem : c8wEntry ∈ ghostTotals (combineOptions c8wOpts) c8wEvents := by
    have h : ghostTotals (combineOptions c8wOpts) c8wEvents = [c8wEntry] := by
      with_unfolding_all rfl
    rw [h]
    exact List.mem_singleton_self _
  exact ((C8_incremental_mean c8wEvents c8wOpts).2 c8wEntry hmem).2.2 c8wObs rfl

/-- C10: a sequence whose mode is none of n, i, R, c, command, v or V
passes the interestingness filter exactly when one of its keys starts
with the special-key opening angle bracket. -/
theorem C10_other_modes (s : SequenceStat)
    (hmode : s.mode ∉ (["n", "i", "R", "c", "command", "v", "V"] : List String)) :
    (isInterestingSequence s = true ↔
      s.keys.any (fun key => key.startsWith "<") = true) := by
  simp only [List.mem_cons, List.mem_singleton, not_or] at hmode
  obtain ⟨h1, h2, h3, h4, h5, h6, h7⟩ := hmode
  simp [isInterestingSequence, h1, h2, h3, h4, h5, h6, h7]

/-- C10 witness: a terminal-mode sequence with a special key is kept and
one with only a plain key is dropped. -/
theorem C10_witness :
    isInterestingSequence ⟨"t", ["<a>"], 1, 0, none⟩ = true ∧
    isInterestingSequence ⟨"t", ["a"], 1, 0, none⟩ = false := by
  constructor
  · exact (C10_other_modes ⟨"t", ["<a>"], 1, 0, none⟩ (by decide)).mpr
      (by with_unfolding_all rfl)
  · cases hb : isInterestingSequence ⟨"t", ["a"], 1, 0, none⟩
    · rfl
    · have h := (C10_other_modes ⟨"t", ["a"], 1, 0, none⟩ (by decide)).mp hb
      have : ¬ (["a"].any (fun key => key.startsWith "<") = true) := by
        with_unfolding_all decide
      exact absurd h this

/-- C9: suggestion parsing is total for every reply text and every
behaviour of the JSON-parsing oracle — the span from the first opening
bracket to the last closing bracket is the candidate array, prose
around a well-formed span is tolerated, a missing span, a parse error
or a non-array value yield the empty list, an array is sanitised
element-wise, and every surviving suggestion has a non-empty string
mode, a non-empty string lhs and a non-empty string sequence. -/
theorem C9_parser_robustness (parse : String → Option Json) (text : String) :
    (extractJsonArray text = none → parseSuggestions parse text = []) ∧
    (∀ jt, extractJsonArray text = some jt → parse jt = none →
      parseSuggestions parse text = []) ∧
    (∀ jt v, extractJsonArray text = some jt → parse jt = some v →
      (∀ xs, v ≠ Json.arr xs) → parseSuggestions parse text = []) ∧
    (∀ jt xs, extractJsonArray text = some jt → parse jt = some (Json.arr xs) →
      parseSuggestions parse text = xs.filterMap sanitizeSuggestion) ∧
    (∀ s ∈ parseSuggestions parse text,
      s.mode ≠ "" ∧ s.lhs ≠ "" ∧ s.sequence ≠ []) ∧
    (∀ pre mid post : String, '[' ∉ pre.toList → ']' ∉ post.toList →
      mid.toList.head? = some '[' → mid.toList.getLast? = some ']' →
      2 ≤ mid.toList.length →
      extractJsonArray (pre ++ mid ++ post) = some mid) := by
  refine ⟨?_, ?_, ?_, ?_, ?_, ?_⟩
  · intro h
    simp [parseSuggestions, h]
  · intro jt h hp
    simp [parseSuggestions, h, hp]
  · intro jt v h hp hv
    simp only [parseSuggestions, h, hp]
  · intro jt xs h hp
    simp [parseSuggestions, h, hp]
  · intro s hs
    rcases he : extractJsonArray text with _ | jt
    · simp [parseSuggestions, he] at hs
    · rcases hp : parse jt with _ | v
      · simp [parseSuggestions, he, hp] at hs
      · cases v with
        | arr xs =>
          simp only [parseSuggestions, he, hp] at hs
          rw [List.mem_filterMap] at hs
          obtain ⟨a, _, ha⟩ := hs
          exact sanitizeSuggestion_fields a s ha
        | null => simp [parseSuggestions, he, hp] at hs
        | bool b => simp [parseSuggestions, he, hp] at hs
        | num q => simp [parseSuggestions, he, hp] at hs
        | str st => simp [parseSuggestions, he, hp] at hs
        | obj fields => simp [parseSuggestions, he, hp] at hs
  · intro pre mid post hpre hpost hhead hlast hlen
    rcases hm : mid.toList with _ | ⟨a, mtail⟩
    · rw [hm] at hhead
      cases hhead
    · have ha : a = '[' := by
        rw [hm] at hhead
        simpa using hhead
      subst ha
      rcases hr : mid.toList.reverse with _ | ⟨b, rtail⟩
      · rw [List.reverse_eq_nil_iff] at hr
        rw [hr] at hm
        cases hm
      · have hb : b = ']' := by
          have := List.head?_reverse mid.toList
          rw [hr, hlast] at this
          simpa using this
        subst hb
        have hdata : (pre ++ mid ++ post).toList =
            pre.toList ++ (mid.toList ++ post.toList) := by
          simp [String.toList, List.append_assoc]
        have hfirst : idxOfChar '[' ((pre ++ mid ++ post).toList) =
            some pre.toList.length := by
          rw [hdata, idxOfChar_append_of_not_mem _ _ _ hpre, hm]
          simp [idxOfChar]
        have hrev : ((pre ++ mid ++ post).toList).reverse =
            post.toList.reverse ++ (mid.toList.reverse ++ pre.toList.reverse) := by
          rw [hdata]
          simp [List.reverse_append]
        have hlen2 : (pre ++ mid ++ post).toList.length =
            pre.toList.length + mid.toList.length + post.toList.length := by
          rw [hdata]
          simp [Nat.add_assoc]
        have hidx : idxOfChar ']' ((pre ++ mid ++ post).toList).reverse =
            some post.toList.length := by
          rw [hrev, idxOfChar_append_of_not_mem _ _ _ (by simpa using hpost), hr]
          simp [idxOfChar]
        have hlastidx : lastIdxOfChar ']' ((pre ++ mid ++ post).toList) =
            some (pre.toList.length + mid.toList.length - 1) := by
          unfold lastIdxOfChar
          rw [hidx]
          simp only [Option.map]
          congr 1
          omega
        simp only [extractJsonArray]
        rw [hfirst, hlastidx]
        have hmidlen : 2 ≤ mid.toList.length := hlen
        have hcond : ¬ (pre.toList.length + mid.toList.length - 1 ≤
            pre.toList.length) := by
          omega
        show (if pre.toList.length + mid.toList.length - 1 ≤ pre.toList.length
            then none
            else some (String.mk
              ((((pre ++ mid ++ post).toList).drop pre.toList.length).take
                (pre.toList.length + mid.toList.length - 1 + 1 -
                  pre.toList.length)))) = some mid
        rw [if_neg hcond]
        have htake : pre.toList.length + mid.toList.length - 1 + 1 -
            pre.toList.length = mid.toList.length := by
          omega
        rw [htake, hdata, List.drop_left, List.take_left]
        rfl

/-- C9 witness: with the canned oracle, the parser extracts exactly the
bracketed span from a reply with surrounding prose, an array of
non-object elements sanitises to the empty suggestion list, and a reply
without any array span yields the empty list. -/
theorem C9_witness :
    extractJsonArray "noise [1] tail" = some "[1]" ∧
    parseSuggestions demoParse "noise [1] tail" = [] ∧
    parseSuggestions demoParse "no json here" = [] := by
  have h1 : extractJsonArray "noise [1] tail" = some "[1]" :=
    (C9_parser_robustness demoParse "noise [1] tail").2.2.2.2.2 "noise " "[1]" " tail"
      (by decide) (by decide) (by decide) (by decide) (by decide)
  refine ⟨h1, ?_, ?_⟩
  · rw [(C9_parser_robustness demoParse "noise [1] tail").2.2.2.1 "[1]"
      [Json.num 1] h1 rfl]
    rfl
  · exact (C9_parser_robustness demoParse "no json here").1 (by decide)

end AiKeymap
